import Mathlib

/-! # sscan: a verification development

A shallow embedding of `scanner.go` (package `sscan`) and proofs about it.

Conventions of the embedding:
* a Go `[]byte` / `net.IP` / `net.IPMask` is a `List Nat` whose elements are bytes
  (`< 256`); byte arithmetic is written with an explicit `% 256`;
* a Go `string` is a Lean `String`, a Go `int` an `Int`;
* a Go `nil` slice is the empty list where only its length is observed, and an
  `Option` where the code tests `!= nil`.
-/

namespace Sscan

/-! ## Addresses as byte slices -/

/-- Validity of a byte slice: every element fits in eight bits. -/
def Bytes (ip : List Nat) : Prop := ∀ b ∈ ip, b < 256

instance (ip : List Nat) : Decidable (Bytes ip) := by
  unfold Bytes; infer_instance

/-- Big-endian integer value of a byte slice (most significant byte first). -/
def beVal (ip : List Nat) : Nat := ip.foldl (fun acc b => acc * 256 + b) 0

/-- The `n`-byte big-endian representation of `v` (of `v % 256 ^ n`). -/
def beBytes : Nat → Nat → List Nat
  | 0, _ => []
  | n + 1, v => beBytes n (v / 256) ++ [v % 256]

/-- The loop of `inc`, with `k = j + 1` for the loop index `j`:
`for j := len(ip) - 1; j >= 0; j-- { ip[j]++; if ip[j] > 0 { break } }`. -/
def incLoop (ip : List Nat) : Nat → List Nat
  | 0 => ip
  | j + 1 =>
    let ip1 := ip.set j ((ip.getD j 0 + 1) % 256)
    if ip1.getD j 0 > 0 then ip1 else incLoop ip1 j

/-- Function `inc` of `scanner.go`: adds one to the slice in place; the result is the
slice's contents afterwards. -/
def inc (ip : List Nat) : List Nat := incLoop ip ip.length

/-! ## The parts of Go's package `net` that `hosts` and `Scan` use -/

/-- Length in bytes of an IPv4 address (`net.IPv4len`). -/
def IPv4len : Nat := 4

/-- Length in bytes of an IPv6 address (`net.IPv6len`). -/
def IPv6len : Nat := 16

/-- The twelve bytes that start an IPv4-mapped IPv6 address (`net.v4InV6Prefix`). -/
def v4InV6 : List Nat := [0, 0, 0, 0, 0, 0, 0, 0, 0, 0, 0xff, 0xff]

/-- The IPv6 loopback address `::1` (`net.IPv6loopback`). -/
def IPv6loopback : List Nat := [0, 0, 0, 0, 0, 0, 0, 0, 0, 0, 0, 0, 0, 0, 0, 1]

/-- A network: `net.IPNet`, a network number and a mask. -/
structure IPNet where
  IP : List Nat
  Mask : List Nat
  deriving DecidableEq, Repr

/-- Whether every byte is `0xff` (`net.allFF`). -/
def allFF (b : List Nat) : Bool := b.all (fun c => c == 0xff)

/-- Whether every byte is zero (`net.isZeros`). -/
def isZeros (p : List Nat) : Bool := p.all (fun c => c == 0)

/-- Method `IP.To4`: the 4-byte form of an IPv4 address, `none` (Go `nil`) when the
address is not an IPv4 address. -/
def To4 (ip : List Nat) : Option (List Nat) :=
  if ip.length = IPv4len then some ip
  else if ip.length = IPv6len ∧ isZeros (ip.take 10) = true ∧ ip.getD 10 0 = 0xff
      ∧ ip.getD 11 0 = 0xff then some ((ip.drop 12).take 4)
  else none

/-- Method `IP.Mask`: the address with the mask applied byte by byte; `[]` (Go `nil`)
when the lengths do not fit. -/
def Mask (ip mask : List Nat) : List Nat :=
  let mask1 := if mask.length = IPv6len ∧ ip.length = IPv4len ∧ allFF (mask.take 12) = true
    then mask.drop 12 else mask
  let ip1 := if mask1.length = IPv4len ∧ ip.length = IPv6len ∧ ip.take 12 = v4InV6
    then ip.drop 12 else ip
  if ip1.length ≠ mask1.length then [] else List.zipWith (fun a m => a &&& m) ip1 mask1

/-- The loop of `net.CIDRMask` over the `l` remaining bytes, `n` one bits still to place. -/
def cidrMaskLoop : Nat → Nat → List Nat
  | 0, _ => []
  | l + 1, n =>
    if n ≥ 8 then 0xff :: cidrMaskLoop l (n - 8)
    else (0xff ^^^ (0xff >>> n)) :: cidrMaskLoop l 0

/-- Function `net.CIDRMask`: the mask of `bits` bits that starts with `ones` one bits;
`[]` (Go `nil`) for arguments out of range. -/
def CIDRMask (ones bits : Int) : List Nat :=
  if bits ≠ 8 * IPv4len ∧ bits ≠ 8 * IPv6len then []
  else if ones < 0 ∨ ones > bits then []
  else cidrMaskLoop (bits.toNat / 8) ones.toNat

/-- Function `net.networkNumberAndMask`; `([], [])` stands for Go's `nil, nil`. -/
def networkNumberAndMask (n : IPNet) : List Nat × List Nat :=
  let ip? : Option (List Nat) :=
    match To4 n.IP with
    | some ip4 => some ip4
    | none => if n.IP.length ≠ IPv6len then none else some n.IP
  match ip? with
  | none => ([], [])
  | some ip =>
    if n.Mask.length = IPv4len then
      if ip.length ≠ IPv4len then ([], []) else (ip, n.Mask)
    else if n.Mask.length = IPv6len then
      if ip.length = IPv4len then (ip, n.Mask.drop 12) else (ip, n.Mask)
    else ([], [])

/-- Method `IPNet.Contains`: whether the network includes the address. -/
def Contains (n : IPNet) (ip : List Nat) : Bool :=
  let nm := networkNumberAndMask n
  let ip1 := match To4 ip with
    | some x => x
    | none => ip
  if ip1.length ≠ nm.1.length then false
  else (List.range ip1.length).all
    (fun i => nm.1.getD i 0 &&& nm.2.getD i 0 == ip1.getD i 0 &&& nm.2.getD i 0)

/-- Method `IP.Equal`. -/
def IPEqual (ip x : List Nat) : Bool :=
  if ip.length = x.length then ip == x
  else if ip.length = IPv4len ∧ x.length = IPv6len then
    x.take 12 == v4InV6 && ip == x.drop 12
  else if ip.length = IPv6len ∧ x.length = IPv4len then
    ip.take 12 == v4InV6 && ip.drop 12 == x
  else false

/-- Method `IP.IsLoopback`. -/
def IsLoopback (ip : List Nat) : Bool :=
  match To4 ip with
  | some ip4 => ip4.getD 0 0 == 127
  | none => IPEqual ip IPv6loopback

/-- Lower-case hexadecimal digits of a number, no leading zeros (`"0"` for zero). -/
def hex (n : Nat) : String := String.mk (Nat.toDigits 16 n)

/-- Two lower-case hexadecimal digits of a byte. -/
def hexByte (b : Nat) : String :=
  String.mk [Nat.digitChar (b / 16 % 16), Nat.digitChar (b % 16)]

/-- The eight 16-bit groups of a 16-byte address. -/
def groups16 : List Nat → List Nat
  | a :: b :: rest => (a * 256 + b) :: groups16 rest
  | _ => []

/-- Number of zero groups at the head of a list of groups. -/
def zeroRun (gs : List Nat) : Nat := (gs.takeWhile (fun g => g == 0)).length

/-- The first longest run of at least two zero groups: `(start, length)`, looked for
from group `i` on, `best` being the longest run found so far. -/
def longestZeroRun : List Nat → Nat → Option (Nat × Nat) → Option (Nat × Nat)
  | [], _, best => best
  | g :: gs, i, best =>
    let l := zeroRun (g :: gs)
    let bestLen := match best with
      | some b => b.2
      | none => 0
    if l ≥ 2 ∧ l > bestLen then longestZeroRun gs (i + 1) (some (i, l))
    else longestZeroRun gs (i + 1) best

/-- Text of a 16-byte IPv6 address: hexadecimal groups, the first longest run of two or
more zero groups written `::`. -/
def string6 (ip : List Nat) : String :=
  let gs := groups16 ip
  match longestZeroRun gs 0 none with
  | none => ":".intercalate (gs.map hex)
  | some (s, l) =>
    ":".intercalate ((gs.take s).map hex) ++ "::" ++ ":".intercalate ((gs.drop (s + l)).map hex)

/-- Method `IP.String`: dotted decimal for an IPv4 address, the IPv6 text form for a
16-byte address, `"<nil>"` for the empty slice and `"?"` followed by the bytes in
hexadecimal for any other length. -/
def IPString (ip : List Nat) : String :=
  if ip.length = 0 then "<nil>"
  else if ip.length ≠ IPv4len ∧ ip.length ≠ IPv6len then
    "?" ++ String.join (ip.map hexByte)
  else
    match To4 ip with
    | some [a, b, c, d] =>
      toString a ++ "." ++ toString b ++ "." ++ toString c ++ "." ++ toString d
    | _ => string6 ip

/-! ## Enumerating the hosts of a network -/

/-- The loop of `hosts`: `for ...; n.Contains(ip); inc(ip) { ips = append(ips, ip.String()) }`.
Every iteration costs one unit of fuel; `none` means the fuel ran out before the loop
condition became false. -/
def hostsLoop (n : IPNet) : Nat → List Nat → List String → Option (List String)
  | 0, _, _ => none
  | fuel + 1, ip, ips =>
    if Contains n ip = true then hostsLoop n fuel (inc ip) (ips ++ [IPString ip])
    else some ips

/-- Function `hosts` of `scanner.go`: the text of every address of the network `n`, from
`ip.Mask(n.Mask)` upwards. `Mask` returns a new slice, so `inc` changes neither the
argument `ip` nor the network `n`. -/
def hosts (fuel : Nat) (ip : List Nat) (n : IPNet) : Option (List String) :=
  hostsLoop n fuel (Mask ip n.Mask) []

/-! ## The parts of Go's packages `strings`, `strconv` and `fmt` that the scanner uses

Strings are handled as lists of characters; the separators and cut sets the scanner
passes are ASCII. -/

/-- Predicate `unicode.IsSpace`: the white space that `strings.Fields` splits on and
`strings.TrimSpace` removes. -/
def isSpace (c : Char) : Bool :=
  let n := c.toNat
  (9 ≤ n && n ≤ 13) || n == 32 || n == 0x85 || n == 0xA0 || n == 0x1680
    || (0x2000 ≤ n && n ≤ 0x200a) || n == 0x2028 || n == 0x2029 || n == 0x202f
    || n == 0x205f || n == 0x3000

/-- Splitting a list of characters around every occurrence of `sep`; the result always
has one element more than there are separators. -/
def splitChar (sep : Char) : List Char → List (List Char)
  | [] => [[]]
  | c :: cs =>
    if c = sep then [] :: splitChar sep cs
    else
      match splitChar sep cs with
      | [] => [[c]]
      | h :: t => (c :: h) :: t

/-- Function `strings.Split(s, sep)` for a separator of one character. -/
def Split (s : String) (sep : Char) : List String := (splitChar sep s.data).map String.mk

/-- The scan of `strings.Fields`: `cur` holds the characters of the field being read,
last one first. -/
def fieldsAux : List Char → List Char → List (List Char)
  | [], cur => if cur = [] then [] else [cur.reverse]
  | c :: cs, cur =>
    if isSpace c = true then
      if cur = [] then fieldsAux cs [] else cur.reverse :: fieldsAux cs []
    else fieldsAux cs (c :: cur)

/-- Function `strings.Fields`: the maximal runs of characters that are not white space. -/
def Fields (s : String) : List String := (fieldsAux s.data []).map String.mk

/-- Function `strings.Trim(s, cutset)`: `s` without the leading and trailing characters
that occur in `cutset`. -/
def Trim (s : String) (cutset : String) : String :=
  String.mk
    (((s.data.dropWhile (fun c => cutset.data.contains c)).reverse.dropWhile
      (fun c => cutset.data.contains c)).reverse)

/-- Function `strings.TrimSpace`. -/
def TrimSpace (s : String) : String :=
  String.mk (((s.data.dropWhile isSpace).reverse.dropWhile isSpace).reverse)

/-- Function `strings.ToLower`, on the ASCII letters. The scanner compares the result
with the ASCII word `local` only, and no letter outside ASCII has `l`, `o`, `c` or `a`
as its lower case. -/
def ToLower (s : String) : String := String.mk (s.data.map Char.toLower)

/-- Value of a list of decimal digits. -/
def digitsVal (cs : List Char) : Nat := cs.foldl (fun acc c => acc * 10 + (c.toNat - 48)) 0

/-- Function `strconv.ParseInt(s, 10, 64)`: an optional sign and decimal digits, within
the range of a 64-bit integer; `none` is an error. -/
def ParseInt (s : String) : Option Int :=
  let neg := s.data.head? = some '-'
  let digits := if s.data.head? = some '-' ∨ s.data.head? = some '+' then s.data.tail else s.data
  if digits = [] ∨ ¬ (digits.all Char.isDigit = true) then none
  else if neg then
    if digitsVal digits ≤ 2 ^ 63 then some (-(digitsVal digits : Int)) else none
  else
    if digitsVal digits < 2 ^ 63 then some (digitsVal digits : Int) else none

/-- Function `strconv.Atoi`, the value it returns with the error dropped: zero for text
that is no number, the nearest 64-bit integer for a number out of range. -/
def Atoi (s : String) : Int :=
  let neg := s.data.head? = some '-'
  let digits := if s.data.head? = some '-' ∨ s.data.head? = some '+' then s.data.tail else s.data
  if digits = [] ∨ ¬ (digits.all Char.isDigit = true) then 0
  else if neg then
    if digitsVal digits ≤ 2 ^ 63 then -(digitsVal digits : Int) else -(2 ^ 63 : Int)
  else
    if digitsVal digits < 2 ^ 63 then (digitsVal digits : Int) else (2 ^ 63 - 1 : Int)

/-- A 64-bit signed integer after an operation that may overflow. -/
def wrap64 (x : Int) : Int := (x + 2 ^ 63) % 2 ^ 64 - 2 ^ 63

/-! ## The probe list -/

/-- Function `probes` of `scanner.go`: a slice of `len(http) + len(https)` strings, filled
by one loop over `http` and one over `https`. -/
def probes (ip : String) (http https : List Int) : List String :=
  let list0 : List String := List.replicate (http.length + https.length) ""
  let list1 := http.enum.foldl
    (fun (list : List String) (q : Nat × Int) =>
      list.set q.1 ("http://" ++ ip ++ ":" ++ toString q.2)) list0
  https.enum.foldl
    (fun (list : List String) (q : Nat × Int) =>
      list.set (q.1 + http.length) ("https://" ++ ip ++ ":" ++ toString q.2)) list1

/-! ## The outside world and the effects of a run

The network, the operating system and the clock are a parameter of the model. What a
function does to the outside is listed in a trace of events. `log` output is left out. -/

/-- Struct `Found` of `scanner.go`; `TS` is a time stamp read from the clock. -/
structure Found where
  IP : String
  Port : Int
  App : String
  Version : String
  Vendor : String
  TS : Nat
  deriving DecidableEq, Repr

/-- What `head` reads of a parsed `url.URL`: the field `Host` and the result of `Port()`. -/
structure URL where
  Host : String
  Port : String
  deriving DecidableEq, Repr

/-- An element of the result of `net.InterfaceAddrs`: a `*net.IPNet`, or an address of
another type. -/
inductive Addr where
  | ipnet (n : IPNet)
  | other
  deriving DecidableEq, Repr

/-- The outside world of a scan. -/
structure World where
  /-- Result of `http.NewRequestWithContext(ctx, "HEAD", probe, nil)`: the parsed URL of
  the request, `none` for an error. The later `url.Parse(probe)` of `head` returns the
  same URL. -/
  NewRequest : String → Option URL
  /-- Result of `client.Do(req)` for the request to a URL: `none` for an error (refused,
  timed out, failed handshake, malformed response), else the value of
  `resp.Header.Get("server")`, the empty string when the header is absent. -/
  Do : String → Option String
  /-- Value of `time.Now().Local()` when the response to a URL is handled. -/
  now : String → Nat
  /-- Result of `net.InterfaceAddrs()`. -/
  InterfaceAddrs : Except String (List Addr)
  /-- Result of `exec.Command("sh", "-c", "ulimit -n").Output()`. -/
  ulimitOutput : Except String String
  /-- Text to bytes for an IPv6 address without zone (`netip.ParseAddr` on text whose
  first separator is a colon): its 16 bytes, `none` for an error or a zone. -/
  parseIPv6 : String → Option (List Nat)

/-- An observable step of a run. -/
inductive Event where
  /-- Function `head` was called on the URL: a HEAD request to it was attempted. -/
  | request (url : String)
  /-- The sink `fn` was called with a `Found`. -/
  | sink (f : Found)
  /-- The network interfaces were read. -/
  | interfaces
  /-- The file-descriptor limit was queried. -/
  | ulimit
  /-- Function `hosts` returned these addresses. -/
  | enumerated (ips : List String)
  deriving DecidableEq, Repr

/-- How a call ends: it returns a value, it panics, it waits for ever, or the model ran
out of fuel before the call ended. -/
inductive Res (α : Type) where
  | ret (a : α)
  | panic (msg : String)
  | blocked
  | outOfFuel
  deriving DecidableEq, Repr

/-- A call: the events it causes, in order, and how it ends. -/
structure Run (α : Type) where
  trace : List Event
  res : Res α
  deriving DecidableEq, Repr

/-- The message of Go's run-time panic for an index past the end of a slice. -/
def indexPanic (i len : Nat) : String :=
  "runtime error: index out of range [" ++ toString i ++ "] with length " ++ toString len

/-! ## Probing one host -/

/-- Lines 126 to 136 of `head`: the `Server` header split into application, version and
vendor. Every index expression is checked as Go checks it; `Except.error` is the panic. -/
def serverDetails (header : String) : Except String (String × String × String) :=
  let details := Split header '/'
  match details[0]? with
  | none => .error (indexPanic 0 details.length)
  | some server =>
    if details.length > 1 then
      match details[1]? with
      | none => .error (indexPanic 1 details.length)
      | some d1 =>
        let versions := Fields d1
        match versions[0]? with
        | none => .error (indexPanic 0 versions.length)
        | some version =>
          if versions.length > 1 then
            match versions[1]? with
            | none => .error (indexPanic 1 versions.length)
            | some v1 => .ok (server, version, Trim v1 "()")
          else .ok (server, version, "")
    else .ok (server, "", "")

/-- Function `head` of `scanner.go`. `fn` tells whether the sink is non-nil. -/
def head (w : World) (probe : String) (fn : Bool) : Run Bool :=
  match w.NewRequest probe with
  | none => ⟨[.request probe], .ret false⟩
  | some u =>
    match w.Do probe with
    | none => ⟨[.request probe], .ret false⟩
    | some header =>
      match serverDetails header with
      | .error msg => ⟨[.request probe], .panic msg⟩
      | .ok (server, version, vendor) =>
        let port := Atoi u.Port
        match (Split u.Host ':')[0]? with
        | none => ⟨[.request probe], .panic (indexPanic 0 0)⟩
        | some ip =>
          if fn = true then
            ⟨[.request probe,
              .sink { IP := ip, Port := port, App := server, Version := version,
                      Vendor := vendor, TS := w.now probe }], .ret true⟩
          else ⟨[.request probe], .ret true⟩

/-- The loop of `scan`: `for _, u := range list { if head(u, fn) { break } }`. -/
def scanLoop (w : World) (fn : Bool) : List String → Run Unit
  | [] => ⟨[], .ret ()⟩
  | u :: rest =>
    match head w u fn with
    | ⟨tr, .ret true⟩ => ⟨tr, .ret ()⟩
    | ⟨tr, .ret false⟩ => ⟨tr ++ (scanLoop w fn rest).trace, (scanLoop w fn rest).res⟩
    | ⟨tr, .panic msg⟩ => ⟨tr, .panic msg⟩
    | ⟨tr, .blocked⟩ => ⟨tr, .blocked⟩
    | ⟨tr, .outOfFuel⟩ => ⟨tr, .outOfFuel⟩

/-- Function `scan` of `scanner.go`. -/
def scan (w : World) (fn : Bool) (ip : String) (http https : List Int) : Run Unit :=
  scanLoop w fn (probes ip http https)

/-! ## Resolving the subnet -/

/-- The loop `for v&0x80 != 0 { n++; v <<= 1 }` of `net.simpleMaskLength` on the byte
`v`: the number of leading one bits and what is left of the byte. A byte is shifted out
after eight rounds. -/
def leadingOnes : Nat → Nat → Nat × Nat
  | 0, v => (0, v)
  | k + 1, v =>
    if v &&& 0x80 ≠ 0 then ((leadingOnes k ((v <<< 1) % 256)).1 + 1, (leadingOnes k ((v <<< 1) % 256)).2)
    else (0, v)

/-- Function `net.simpleMaskLength`: the number of leading ones of a mask made of ones
followed by zeros, `none` (Go `-1`) for any other mask. -/
def simpleMaskLength : List Nat → Option Nat
  | [] => some 0
  | v :: rest =>
    if v = 0xff then (simpleMaskLength rest).map (fun n => n + 8)
    else if (leadingOnes 8 v).2 ≠ 0 then none
    else if rest.all (fun b => b == 0) = true then some (leadingOnes 8 v).1
    else none

/-- Method `IPMask.String`: the bytes in hexadecimal. -/
def IPMaskString (m : List Nat) : String :=
  if m.length = 0 then "<nil>" else String.join (m.map hexByte)

/-- Method `IPNet.String`: the network in CIDR notation. -/
def IPNetString (n : IPNet) : String :=
  let nm := networkNumberAndMask n
  if nm.1 = [] ∨ nm.2 = [] then "<nil>"
  else
    match simpleMaskLength nm.2 with
    | none => IPString nm.1 ++ "/" ++ IPMaskString nm.2
    | some l => IPString nm.1 ++ "/" ++ toString l

/-- One field of a dotted IPv4 address: decimal digits without a leading zero, at most
255. -/
def parseIPv4Field (f : List Char) : Option Nat :=
  if f = [] ∨ ¬ (f.all Char.isDigit = true) then none
  else if f.length > 1 ∧ f.head? = some '0' then none
  else if digitsVal f > 255 then none
  else some (digitsVal f)

/-- Text to bytes for an IPv4 address: four fields separated by dots. -/
def parseIPv4 (s : String) : Option (List Nat) :=
  match (splitChar '.' s.data).map parseIPv4Field with
  | [some a, some b, some c, some d] => some [a, b, c, d]
  | _ => none

/-- Function `netip.ParseAddr`, as `net.ParseCIDR` uses it: the first `.`, `:` or `%` of
the text decides how it is read. The result has 4 bytes for IPv4 and 16 for IPv6; `none`
is an error. -/
def ParseAddr (w : World) (s : String) : Option (List Nat) :=
  match s.data.find? (fun c => c = '.' ∨ c = ':' ∨ c = '%') with
  | some '.' => parseIPv4 s
  | some ':' => (w.parseIPv6 s).bind (fun ip => if ip.length = IPv6len then some ip else none)
  | _ => none

/-- The loop of `net.dtoi`: the decimal digits at the head of the text are read into
`n`, `i` counts them; `none` when the number reaches `0xFFFFFF`. -/
def dtoiLoop : List Char → Nat → Nat → Option (Nat × Nat)
  | [], n, i => some (n, i)
  | c :: cs, n, i =>
    if c.isDigit = true then
      if n * 10 + (c.toNat - 48) ≥ 0xFFFFFF then none
      else dtoiLoop cs (n * 10 + (c.toNat - 48)) (i + 1)
    else some (n, i)

/-- Function `net.dtoi`: the number at the head of the text and how many characters it
takes; `none` when there is no digit or the number is too big. -/
def dtoi (s : List Char) : Option (Nat × Nat) :=
  match dtoiLoop s 0 0 with
  | none => none
  | some (n, i) => if i = 0 then none else some (n, i)

/-- Function `net.ParseCIDR`, the `*IPNet` it returns: `Except.error` carries the text
of the `*net.ParseError`. -/
def ParseCIDR (w : World) (s : String) : Except String IPNet :=
  let err : Except String IPNet := .error ("invalid CIDR address: " ++ s)
  if ¬ s.data.contains '/' then err
  else
    let addr := String.mk (s.data.takeWhile (fun c => c ≠ '/'))
    let mask := (s.data.dropWhile (fun c => c ≠ '/')).tail
    match ParseAddr w addr with
    | none => err
    | some ip =>
      let bitLen : Nat := if ip.length = IPv4len then 32 else 128
      match dtoi mask with
      | none => err
      | some (n, i) =>
        if i ≠ mask.length ∨ n > bitLen then err
        else
          let m := CIDRMask n bitLen
          let addr16 := if ip.length = IPv4len then v4InV6 ++ ip else ip
          .ok { IP := Mask addr16 m, Mask := m }

/-- Function `networkInfo` of `scanner.go`: the first interface address that is a
`*net.IPNet`, is not a loopback address and has an IPv4 form. -/
def networkInfo (w : World) : Except String IPNet :=
  match w.InterfaceAddrs with
  | .error e => .error e
  | .ok addrs =>
    let ok := addrs.filterMap (fun a =>
      match a with
      | .ipnet n => if IsLoopback n.IP = false ∧ (To4 n.IP).isSome = true then some n else none
      | .other => none)
    match ok with
    | n :: _ => .ok n
    | [] => .error "no IP address for you!"

/-- Function `DefaultSubnet` of `scanner.go`. -/
def DefaultSubnet (w : World) : Except String String :=
  match networkInfo w with
  | .error e => .error e
  | .ok n => .ok (IPNetString n)

/-- Function `Ulimit` of `scanner.go`: the open-files limit of the host; it panics when
the shell fails or prints no number. -/
def Ulimit (w : World) : Res Int :=
  match w.ulimitOutput with
  | .error e => .panic e
  | .ok out =>
    match ParseInt (TrimSpace out) with
    | none => .panic ("strconv.ParseInt: parsing " ++ TrimSpace out)
    | some i => .ret i

/-! ## The sweep and the entry points -/

/-- The goroutines of `sweep`, one for each host. Each runs `scan` for its host; the
events are listed host by host, in the order the hosts are dispatched, and the order in
time of the events of different hosts is not represented. A panic in a goroutine ends
the process. -/
def sweepLoop (w : World) (fn : Bool) (http https : List Int) : List String → Run Unit
  | [] => ⟨[], .ret ()⟩
  | ip :: rest =>
    match scan w fn ip http https with
    | ⟨tr, .ret _⟩ =>
      ⟨tr ++ (sweepLoop w fn http https rest).trace, (sweepLoop w fn http https rest).res⟩
    | ⟨tr, .panic msg⟩ => ⟨tr, .panic msg⟩
    | ⟨tr, .blocked⟩ => ⟨tr, .blocked⟩
    | ⟨tr, .outOfFuel⟩ => ⟨tr, .outOfFuel⟩

/-- Function `sweep` of `scanner.go`. The semaphore holds `limit` units and every host
takes one before its goroutine starts: with a limit below one the first `Acquire` never
returns (its context is `context.TODO()`), and no host is probed. -/
def sweep (w : World) (fuel : Nat) (fn : Bool) (n : IPNet) (limit : Int)
    (http https : List Int) : Run Unit :=
  match hosts fuel n.IP n with
  | none => ⟨[], .outOfFuel⟩
  | some ips =>
    if ips ≠ [] ∧ limit < 1 then ⟨[.enumerated ips], .blocked⟩
    else
      ⟨.enumerated ips :: (sweepLoop w fn http https ips).trace,
        (sweepLoop w fn http https ips).res⟩

/-- Constant `LocalSubnet` of `scanner.go`. -/
def LocalSubnet : String := "local"

/-- Function `Scan` of `scanner.go`. The value returned is the error, `none` for `nil`. -/
def Scan (w : World) (fuel : Nat) (cidr : String) (http https : List Int) (fn : Bool) :
    Run (Option String) :=
  let resolved : List Event × Except String String :=
    if ToLower cidr = LocalSubnet then
      match DefaultSubnet w with
      | .error e => ([.interfaces], .error e)
      | .ok subnet => ([.interfaces], .ok subnet)
    else ([], .ok cidr)
  match resolved with
  | (tr, .error e) => ⟨tr, .ret (some e)⟩
  | (tr, .ok cidr1) =>
    match ParseCIDR w cidr1 with
    | .error e => ⟨tr, .ret (some ("parse error: " ++ e))⟩
    | .ok ipnet =>
      match Ulimit w with
      | .panic msg => ⟨tr ++ [.ulimit], .panic msg⟩
      | .blocked => ⟨tr ++ [.ulimit], .blocked⟩
      | .outOfFuel => ⟨tr ++ [.ulimit], .outOfFuel⟩
      | .ret limit0 =>
        let limit := wrap64 (limit0 - 10)
        match sweep w fuel fn ipnet limit http https with
        | ⟨tr1, .ret _⟩ => ⟨tr ++ [.ulimit] ++ tr1, .ret none⟩
        | ⟨tr1, .panic msg⟩ => ⟨tr ++ [.ulimit] ++ tr1, .panic msg⟩
        | ⟨tr1, .blocked⟩ => ⟨tr ++ [.ulimit] ++ tr1, .blocked⟩
        | ⟨tr1, .outOfFuel⟩ => ⟨tr ++ [.ulimit] ++ tr1, .outOfFuel⟩

/-- A `context.Context`, as far as a caller can tell one from another: whether it is
done, and the error it then reports. -/
structure Context where
  done : Bool
  err : Option String
  deriving DecidableEq, Repr

/-- Function `ScanContext` of `scanner.go`: the body of `Scan`, with a context that no
statement of the body reads. -/
def ScanContext (w : World) (fuel : Nat) (_ctx : Context) (cidr : String)
    (http https : List Int) (fn : Bool) : Run (Option String) :=
  let resolved : List Event × Except String String :=
    if ToLower cidr = LocalSubnet then
      match DefaultSubnet w with
      | .error e => ([.interfaces], .error e)
      | .ok subnet => ([.interfaces], .ok subnet)
    else ([], .ok cidr)
  match resolved with
  | (tr, .error e) => ⟨tr, .ret (some e)⟩
  | (tr, .ok cidr1) =>
    match ParseCIDR w cidr1 with
    | .error e => ⟨tr, .ret (some ("parse error: " ++ e))⟩
    | .ok ipnet =>
      match Ulimit w with
      | .panic msg => ⟨tr ++ [.ulimit], .panic msg⟩
      | .blocked => ⟨tr ++ [.ulimit], .blocked⟩
      | .outOfFuel => ⟨tr ++ [.ulimit], .outOfFuel⟩
      | .ret limit0 =>
        let limit := wrap64 (limit0 - 10)
        match sweep w fuel fn ipnet limit http https with
        | ⟨tr1, .ret _⟩ => ⟨tr ++ [.ulimit] ++ tr1, .ret none⟩
        | ⟨tr1, .panic msg⟩ => ⟨tr ++ [.ulimit] ++ tr1, .panic msg⟩
        | ⟨tr1, .blocked⟩ => ⟨tr ++ [.ulimit] ++ tr1, .blocked⟩
        | ⟨tr1, .outOfFuel⟩ => ⟨tr ++ [.ulimit] ++ tr1, .outOfFuel⟩

/-! ## Reading a trace -/

/-- Whether the HEAD request to a URL succeeds: the request can be built and a response
comes back. -/
def succeeds (w : World) (u : String) : Bool := (w.NewRequest u).isSome && (w.Do u).isSome

/-- The URLs requested in a trace, in order. -/
def requests (tr : List Event) : List String :=
  tr.filterMap (fun e =>
    match e with
    | .request u => some u
    | _ => none)

/-- The values the sink was called with in a trace, in order. -/
def sinks (tr : List Event) : List Found :=
  tr.filterMap (fun e =>
    match e with
    | .sink f => some f
    | _ => none)

/-- The elements of a list up to and including the first one that satisfies `p`; the
whole list when none does. -/
def uptoFirst (p : String → Bool) : List String → List String
  | [] => []
  | u :: rest => if p u = true then [u] else u :: uptoFirst p rest

/-! ## A world for the examples -/

/-- Host part of a URL of the form `scheme://host:port`, for the examples. -/
def hostOf (u : String) : String := String.mk ((u.data.dropWhile (fun c => c ≠ '/')).drop 2)

/-- Port part of a URL of the form `scheme://host:port`, for the examples. -/
def portOf (u : String) : String :=
  String.mk ((u.data.reverse.takeWhile (fun c => c ≠ ':')).reverse)

/-- A world with one web server: the URL `url` answers with the header `server`, every
other request fails. The host has no network interface and 1024 file descriptors. -/
def oneServer (url server : String) : World where
  NewRequest := fun u => some { Host := hostOf u, Port := portOf u }
  Do := fun u => if u = url then some server else none
  now := fun _ => 0
  InterfaceAddrs := .error "no interfaces"
  ulimitOutput := .ok "1024"
  parseIPv6 := fun _ => none

/-! ## Theorems: `inc` -/

theorem beVal_nil : beVal [] = 0 := rfl

theorem beVal_concat (l : List Nat) (b : Nat) : beVal (l ++ [b]) = beVal l * 256 + b := by
  simp [beVal, List.foldl_append]

theorem Bytes.concat {l : List Nat} {b : Nat} (hl : Bytes l) (hb : b < 256) : Bytes (l ++ [b]) := by
  intro x hx
  rcases List.mem_append.1 hx with h | h
  · exact hl x h
  · simp at h; omega

theorem Bytes.of_concat {l : List Nat} {b : Nat} (h : Bytes (l ++ [b])) : Bytes l ∧ b < 256 :=
  ⟨fun x hx => h x (List.mem_append_left _ hx), h b (by simp)⟩

theorem beVal_lt (l : List Nat) (h : Bytes l) : beVal l < 256 ^ l.length := by
  induction l using List.reverseRecOn with
  | nil => simp [beVal]
  | append_singleton l b ih =>
    obtain ⟨hl, hb⟩ := h.of_concat
    have := ih hl
    rw [beVal_concat, List.length_append, List.length_singleton, pow_succ]
    omega

theorem incLoop_length (ip : List Nat) (k : Nat) : (incLoop ip k).length = ip.length := by
  induction k generalizing ip with
  | zero => rfl
  | succ j ih =>
    simp only [incLoop]
    split
    · simp
    · rw [ih]; simp

/-- The loop of `inc` never touches the bytes to the right of its index. -/
theorem incLoop_append (pre suf : List Nat) (k : Nat) (hk : k ≤ pre.length) :
    incLoop (pre ++ suf) k = incLoop pre k ++ suf := by
  induction k generalizing pre with
  | zero => rfl
  | succ j ih =>
    have hj : j < pre.length := hk
    simp only [incLoop]
    have h1 : (pre ++ suf).getD j 0 = pre.getD j 0 := by
      simp [List.getD_eq_getElem?_getD, List.getElem?_append_left hj]
    have h2 : (pre ++ suf).set j ((pre.getD j 0 + 1) % 256)
        = pre.set j ((pre.getD j 0 + 1) % 256) ++ suf := by
      rw [List.set_append_left _ _ hj]
    rw [h1, h2]
    have h3 : (pre.set j ((pre.getD j 0 + 1) % 256) ++ suf).getD j 0
        = (pre.set j ((pre.getD j 0 + 1) % 256)).getD j 0 := by
      simp [List.getD_eq_getElem?_getD, List.getElem?_append_left, hj]
    rw [h3]
    split
    · rfl
    · exact ih _ (by simp; omega)

/-- One round of `inc` on the last byte: either it does not wrap and the loop stops, or
it wraps to zero and the carry goes on in the bytes before it. -/
theorem inc_concat (l : List Nat) (b : Nat) :
    inc (l ++ [b]) = if (b + 1) % 256 > 0 then l ++ [(b + 1) % 256] else inc l ++ [0] := by
  unfold inc
  rw [List.length_append, List.length_singleton, incLoop]
  have h1 : (l ++ [b]).getD l.length 0 = b := by
    simp [List.getD_eq_getElem?_getD]
  have h2 : ∀ x, (l ++ [b]).set l.length x = l ++ [x] := by
    intro x; simp [List.set_append_right]
  simp only [h1, h2]
  have h3 : (l ++ [(b + 1) % 256]).getD l.length 0 = (b + 1) % 256 := by
    simp [List.getD_eq_getElem?_getD]
  rw [h3]
  split
  · rfl
  · rename_i h
    have : (b + 1) % 256 = 0 := by omega
    rw [this, incLoop_append _ _ _ (le_refl _)]

theorem inc_length (ip : List Nat) : (inc ip).length = ip.length := incLoop_length ip _

theorem inc_bytes (ip : List Nat) (h : Bytes ip) : Bytes (inc ip) := by
  induction ip using List.reverseRecOn with
  | nil => exact h
  | append_singleton l b ih =>
    obtain ⟨hl, hb⟩ := h.of_concat
    rw [inc_concat]
    split
    · exact hl.concat (Nat.mod_lt _ (by decide))
    · exact (ih hl).concat (by decide)

/-- Function `inc` adds one to the big-endian value, modulo `256 ^ len(ip)`. -/
theorem inc_beVal (ip : List Nat) (h : Bytes ip) :
    beVal (inc ip) = (beVal ip + 1) % 256 ^ ip.length := by
  induction ip using List.reverseRecOn with
  | nil => simp [inc, incLoop, beVal]
  | append_singleton l b ih =>
    obtain ⟨hl, hb⟩ := h.of_concat
    have hlt := beVal_lt l hl
    rw [inc_concat, List.length_append, List.length_singleton, pow_succ]
    split
    · rename_i hpos
      have hb1 : (b + 1) % 256 = b + 1 := by omega
      rw [beVal_concat, beVal_concat, hb1, Nat.mod_eq_of_lt]
      · ring
      · omega
    · rename_i hpos
      have hb1 : b = 255 := by omega
      subst hb1
      rw [beVal_concat, beVal_concat, ih hl]
      have : beVal l * 256 + 255 + 1 = (beVal l + 1) * 256 := by ring
      rw [this, Nat.mul_mod_mul_right, Nat.add_zero]

/-! ## Theorems: masks, containment and the loop of `hosts` -/

theorem foldl_beVal (l : List Nat) (acc : Nat) :
    l.foldl (fun acc b => acc * 256 + b) acc = acc * 256 ^ l.length + beVal l := by
  induction l generalizing acc with
  | nil => simp [beVal]
  | cons b l ih =>
    simp only [List.foldl_cons, beVal, List.length_cons]
    rw [ih (acc * 256 + b), ih (0 * 256 + b)]
    simp only [beVal, pow_succ]; ring

theorem beVal_cons (b : Nat) (l : List Nat) : beVal (b :: l) = b * 256 ^ l.length + beVal l := by
  rw [beVal, List.foldl_cons, foldl_beVal]; simp

theorem beBytes_length (n v : Nat) : (beBytes n v).length = n := by
  induction n generalizing v with
  | zero => rfl
  | succ n ih => simp [beBytes, ih]

theorem beBytes_bytes (n v : Nat) : Bytes (beBytes n v) := by
  induction n generalizing v with
  | zero => intro b hb; simp [beBytes] at hb
  | succ n ih => exact (ih _).concat (Nat.mod_lt _ (by decide))

theorem beVal_beBytes (n v : Nat) : beVal (beBytes n v) = v % 256 ^ n := by
  induction n generalizing v with
  | zero => simp [beBytes, beVal, Nat.mod_one]
  | succ n ih =>
    rw [beBytes, beVal_concat, ih, pow_succ, Nat.mul_comm (256 ^ n) 256, Nat.mod_mul]
    ring

theorem beBytes_beVal (l : List Nat) (h : Bytes l) : beBytes l.length (beVal l) = l := by
  induction l using List.reverseRecOn with
  | nil => rfl
  | append_singleton l b ih =>
    obtain ⟨hl, hb⟩ := h.of_concat
    rw [List.length_append, List.length_singleton, beBytes, beVal_concat]
    have h1 : (beVal l * 256 + b) / 256 = beVal l := by omega
    have h2 : (beVal l * 256 + b) % 256 = b := by omega
    rw [h1, h2, ih hl]

theorem beVal_inj (l1 l2 : List Nat) (h1 : Bytes l1) (h2 : Bytes l2)
    (hlen : l1.length = l2.length) (hv : beVal l1 = beVal l2) : l1 = l2 := by
  rw [← beBytes_beVal l1 h1, ← beBytes_beVal l2 h2, hlen, hv]

set_option maxRecDepth 100000 in
theorem land_maskByte : ∀ n < 8, ∀ x < 256,
    x &&& (0xff ^^^ (0xff >>> n)) = x / 2 ^ (8 - n) * 2 ^ (8 - n) := by
  decide

set_option maxRecDepth 100000 in
theorem land_ff : ∀ x < 256, x &&& 0xff = x := by
  decide

theorem cidrMaskLoop_length (l n : Nat) : (cidrMaskLoop l n).length = l := by
  induction l generalizing n with
  | zero => rfl
  | succ l ih => simp only [cidrMaskLoop]; split <;> simp [ih]

theorem zipWith_land_bytes (x m : List Nat) (hx : Bytes x) :
    Bytes (List.zipWith (fun a m => a &&& m) x m) := by
  induction x generalizing m with
  | nil => intro b hb; simp at hb
  | cons a x ih =>
    cases m with
    | nil => intro b hb; simp at hb
    | cons c m =>
      intro b hb
      simp only [List.zipWith_cons_cons, List.mem_cons] at hb
      rcases hb with rfl | hb
      · exact lt_of_le_of_lt Nat.and_le_left (hx a (by simp))
      · exact ih m (fun y hy => hx y (List.mem_cons_of_mem _ hy)) b hb

/-- Masking with the mask of `n` leading ones clears the `8 * l - n` low bits of the
big-endian value. -/
theorem beVal_land_cidrMaskLoop (l : Nat) (x : List Nat) (n : Nat) (hx : Bytes x)
    (hl : x.length = l) (hn : n ≤ 8 * l) :
    beVal (List.zipWith (fun a m => a &&& m) x (cidrMaskLoop l n))
      = beVal x / 2 ^ (8 * l - n) * 2 ^ (8 * l - n) := by
  induction l generalizing x n with
  | zero =>
    have : x = [] := List.length_eq_zero.1 hl
    subst this; simp [cidrMaskLoop, beVal]
  | succ l ih =>
    match x, hl with
    | b :: rest, hl =>
      have hb : b < 256 := hx b (by simp)
      have hrest : Bytes rest := fun y hy => hx y (List.mem_cons_of_mem _ hy)
      have hlen : rest.length = l := by simpa using hl
      have h256 : (256 : Nat) ^ l = 2 ^ (8 * l) := by
        rw [pow_mul]; norm_num
      have hR : beVal rest < 2 ^ (8 * l) := by
        have := beVal_lt rest hrest
        rwa [hlen, h256] at this
      simp only [cidrMaskLoop]
      split
      · rename_i h8
        rw [List.zipWith_cons_cons, land_ff b hb, beVal_cons, beVal_cons,
          List.length_zipWith, cidrMaskLoop_length, hlen, Nat.min_self, ih rest (n - 8) hrest hlen (by omega)]
        have hk : 8 * l - (n - 8) = 8 * (l + 1) - n := by omega
        rw [hk, h256]
        have hsplit : 2 ^ (8 * l) = 2 ^ (8 * l - (8 * (l + 1) - n)) * 2 ^ (8 * (l + 1) - n) := by
          rw [← pow_add]; congr 1; omega
        generalize 8 * (l + 1) - n = k at *
        have hpos : 0 < 2 ^ k := Nat.two_pow_pos k
        have hdiv : (b * 2 ^ (8 * l - k) * 2 ^ k + beVal rest) / 2 ^ k
            = b * 2 ^ (8 * l - k) + beVal rest / 2 ^ k := by
          rw [Nat.add_comm, Nat.add_mul_div_right _ _ hpos, Nat.add_comm]
        rw [hsplit, ← Nat.mul_assoc, hdiv]
        ring
      · rename_i h8
        have h8' : n < 8 := by omega
        rw [List.zipWith_cons_cons, land_maskByte n h8' b hb, beVal_cons, beVal_cons,
          List.length_zipWith, cidrMaskLoop_length, hlen, Nat.min_self, ih rest 0 hrest hlen (by omega)]
        rw [Nat.sub_zero, Nat.div_eq_of_lt hR, Nat.zero_mul, Nat.add_zero, h256]
        have hk : 8 * (l + 1) - n = 8 * l + (8 - n) := by omega
        rw [hk, pow_add, ← Nat.div_div_eq_div_mul]
        have : (b * 2 ^ (8 * l) + beVal rest) / 2 ^ (8 * l) = b := by
          rw [Nat.add_comm, Nat.add_mul_div_right _ _ (Nat.two_pow_pos _), Nat.div_eq_of_lt hR]
          simp
        rw [this]; ring

theorem CIDRMask_32 (p : Nat) (hp : p ≤ 32) : CIDRMask p 32 = cidrMaskLoop 4 p := by
  have h1 : ¬ ((p : Int) < 0 ∨ (p : Int) > 32) := by omega
  unfold CIDRMask
  rw [if_neg (by simp [IPv4len]), if_neg h1]
  simp

theorem CIDRMask_32_length (p : Nat) (hp : p ≤ 32) : (CIDRMask p 32).length = 4 := by
  rw [CIDRMask_32 p hp, cidrMaskLoop_length]

theorem Mask_eq_zipWith (x m : List Nat) (hx : x.length = 4) (hm : m.length = 4) :
    Mask x m = List.zipWith (fun a m => a &&& m) x m := by
  simp [Mask, hx, hm, IPv4len, IPv6len]

/-- Method `IP.Mask` on an IPv4 address and the mask of prefix length `p`. -/
theorem Mask_cidr4 (x : List Nat) (p : Nat) (hx : Bytes x) (hlen : x.length = 4)
    (hp : p ≤ 32) :
    Mask x (CIDRMask p 32) = beBytes 4 (beVal x / 2 ^ (32 - p) * 2 ^ (32 - p)) := by
  rw [Mask_eq_zipWith x _ hlen (CIDRMask_32_length p hp), CIDRMask_32 p hp]
  have hv := beVal_land_cidrMaskLoop 4 x p hx hlen (by omega)
  have hb := zipWith_land_bytes x (cidrMaskLoop 4 p) hx
  have hl : (List.zipWith (fun a m => a &&& m) x (cidrMaskLoop 4 p)).length = 4 := by
    simp [cidrMaskLoop_length, hlen]
  have := beBytes_beVal _ hb
  rw [hl, hv] at this
  exact this.symm

theorem To4_of_length4 (x : List Nat) (hx : x.length = 4) : To4 x = some x := by
  simp [To4, hx, IPv4len]

theorem all_land_iff (a ip m : List Nat) (h1 : a.length = ip.length) (h2 : m.length = ip.length) :
    (List.range ip.length).all
        (fun i => a.getD i 0 &&& m.getD i 0 == ip.getD i 0 &&& m.getD i 0) = true
      ↔ List.zipWith (fun a m => a &&& m) a m = List.zipWith (fun a m => a &&& m) ip m := by
  simp only [List.all_eq_true, List.mem_range, beq_iff_eq]
  constructor
  · intro h
    apply List.ext_getElem (by simp [h1, h2])
    intro i hi1 hi2
    simp only [List.length_zipWith, lt_min_iff] at hi1 hi2
    have := h i hi2.1
    simp only [List.getD_eq_getElem?_getD, List.getElem?_eq_getElem hi1.1,
      List.getElem?_eq_getElem hi1.2, List.getElem?_eq_getElem hi2.1, Option.getD_some] at this
    simpa [List.getElem_zipWith] using this
  · intro h i hi
    have ha : i < a.length := by omega
    have hm : i < m.length := by omega
    have h3 : (List.zipWith (fun a m => a &&& m) a m)[i]?
        = (List.zipWith (fun a m => a &&& m) ip m)[i]? := by rw [h]
    simp only [List.getD_eq_getElem?_getD, List.getElem?_eq_getElem ha,
      List.getElem?_eq_getElem hm, List.getElem?_eq_getElem hi, Option.getD_some]
    simpa [List.getElem?_zipWith, List.getElem?_eq_getElem ha,
      List.getElem?_eq_getElem hm, List.getElem?_eq_getElem hi] using h3

/-- Method `IPNet.Contains` for IPv4: the address and the network number agree on the
first `p` bits. -/
theorem Contains_cidr4 (a ip : List Nat) (p : Nat) (ha : Bytes a) (hip : Bytes ip)
    (hla : a.length = 4) (hlip : ip.length = 4) (hp : p ≤ 32) :
    Contains ⟨a, CIDRMask p 32⟩ ip = true
      ↔ beVal a / 2 ^ (32 - p) = beVal ip / 2 ^ (32 - p) := by
  have hlm := CIDRMask_32_length p hp
  have hnm : networkNumberAndMask ⟨a, CIDRMask p 32⟩ = (a, CIDRMask p 32) := by
    simp [networkNumberAndMask, To4_of_length4 a hla, hlm, hla, IPv4len]
  unfold Contains
  simp only [hnm, To4_of_length4 ip hlip, hlip, hla, ne_eq, not_true_eq_false, if_false]
  have := all_land_iff a ip (CIDRMask p 32) (by omega) (by omega)
  rw [hlip] at this
  rw [this, ← Mask_eq_zipWith a _ hla hlm, ← Mask_eq_zipWith ip _ hlip hlm,
    Mask_cidr4 a p ha hla hp, Mask_cidr4 ip p hip hlip hp]
  have hpos : 0 < 2 ^ (32 - p) := Nat.two_pow_pos _
  have hlt : ∀ x : List Nat, Bytes x → x.length = 4 →
      beVal x / 2 ^ (32 - p) * 2 ^ (32 - p) < 256 ^ 4 := by
    intro x hx hl
    have := beVal_lt x hx
    rw [hl] at this
    exact lt_of_le_of_lt (Nat.div_mul_le_self _ _) this
  constructor
  · intro h
    have h2 := congrArg beVal h
    rw [beVal_beBytes, beVal_beBytes, Nat.mod_eq_of_lt (hlt a ha hla),
      Nat.mod_eq_of_lt (hlt ip hip hlip)] at h2
    exact Nat.eq_of_mul_eq_mul_right hpos h2
  · intro h
    rw [h]

/-- Function `inc` on a 4-byte address, in terms of its value. -/
theorem inc_beBytes4 (v : Nat) (hv : v < 2 ^ 32) :
    inc (beBytes 4 v) = beBytes 4 ((v + 1) % 2 ^ 32) := by
  have hb := inc_bytes _ (beBytes_bytes 4 v)
  have hl : (inc (beBytes 4 v)).length = 4 := by rw [inc_length, beBytes_length]
  have h := beBytes_beVal _ hb
  rw [hl, inc_beVal _ (beBytes_bytes 4 v), beVal_beBytes, beBytes_length] at h
  rw [← h]
  have : v % 256 ^ 4 = v := Nat.mod_eq_of_lt (by norm_num at hv ⊢; exact hv)
  rw [this]
  norm_num

/-- Loop invariant of `hosts`: started `k` addresses before the end of the block
`[base, base + S)`, the loop appends exactly those `k` addresses and stops. -/
theorem hostsLoop_enum (n : IPNet) (base S : Nat) (hS : S < 2 ^ 32) (hle : base + S ≤ 2 ^ 32)
    (hcont : ∀ v, v < 2 ^ 32 → (Contains n (beBytes 4 v) = true ↔ base ≤ v ∧ v < base + S))
    (k v fuel : Nat) (acc : List String) (hk : v + k = base + S) (hv : base ≤ v)
    (hfuel : k < fuel) :
    hostsLoop n fuel (beBytes 4 (v % 2 ^ 32)) acc
      = some (acc ++ (List.range' v k).map (fun w => IPString (beBytes 4 w))) := by
  induction k generalizing v fuel acc with
  | zero =>
    obtain ⟨fuel, rfl⟩ : ∃ f, fuel = f + 1 := ⟨fuel - 1, by omega⟩
    have hnot : ¬ (Contains n (beBytes 4 (v % 2 ^ 32)) = true) := by
      rw [hcont _ (Nat.mod_lt _ (by positivity))]
      rcases Nat.lt_or_ge v (2 ^ 32) with h | h
      · rw [Nat.mod_eq_of_lt h]; omega
      · have : v = 2 ^ 32 := by omega
        subst this
        simp only [Nat.mod_self]; omega
    rw [hostsLoop, if_neg hnot]
    simp
  | succ k ih =>
    obtain ⟨fuel, rfl⟩ : ∃ f, fuel = f + 1 := ⟨fuel - 1, by omega⟩
    have hlt : v < 2 ^ 32 := by omega
    have hyes : Contains n (beBytes 4 v) = true := (hcont v hlt).2 ⟨hv, by omega⟩
    rw [Nat.mod_eq_of_lt hlt, hostsLoop, if_pos hyes, inc_beBytes4 v hlt,
      ih (v + 1) fuel _ (by omega) (by omega) (by omega)]
    simp [List.range'_succ]

/-! ## Theorems: `inc` and `hosts` -/

theorem inc_carry (pre : List Nat) (b k : Nat) (hb : b < 255) :
    inc (pre ++ b :: List.replicate k 255) = pre ++ (b + 1) :: List.replicate k 0 := by
  induction k with
  | zero =>
    have h1 : (b + 1) % 256 = b + 1 := by omega
    simp only [List.replicate_zero]
    rw [inc_concat, h1, if_pos (by omega)]
  | succ k ih =>
    have e1 : pre ++ b :: List.replicate (k + 1) 255
        = (pre ++ b :: List.replicate k 255) ++ [255] := by
      rw [List.replicate_succ']; simp
    have e2 : pre ++ (b + 1) :: List.replicate (k + 1) 0
        = (pre ++ (b + 1) :: List.replicate k 0) ++ [0] := by
      rw [List.replicate_succ']; simp
    rw [e1, e2, inc_concat, if_neg (by decide), ih]

theorem inc_allFF (n : Nat) : inc (List.replicate n 255) = List.replicate n 0 := by
  induction n with
  | zero => rfl
  | succ n ih =>
    rw [List.replicate_succ', List.replicate_succ', inc_concat, if_neg (by decide), ih]

/-- C10: for a byte slice `ip` of length at least one, `inc` keeps the length, leaves
bytes, and adds one to the big-endian value modulo `256 ^ len(ip)`; the carry runs
through the trailing `0xFF` bytes, and the all-`0xFF` slice wraps to all zeros. -/
theorem inc_adds_one (ip : List Nat) (hb : Bytes ip) (_hn : 1 ≤ ip.length) :
    (inc ip).length = ip.length ∧ Bytes (inc ip)
      ∧ beVal (inc ip) = (beVal ip + 1) % 256 ^ ip.length
      ∧ (∀ (pre : List Nat) (b k : Nat), ip = pre ++ b :: List.replicate k 255 → b < 255 →
          inc ip = pre ++ (b + 1) :: List.replicate k 0)
      ∧ (ip = List.replicate ip.length 255 → inc ip = List.replicate ip.length 0) := by
  refine ⟨inc_length ip, inc_bytes ip hb, inc_beVal ip hb, ?_, ?_⟩
  · intro pre b k hip hlt
    rw [hip]; exact inc_carry pre b k hlt
  · intro h
    rw [h, inc_allFF]; simp

/-- C10 at the slice `10.0.255.255`: the carry runs through the two trailing `0xFF`. -/
theorem inc_adds_one_witness :
    Bytes [10, 0, 255, 255] ∧ 1 ≤ [10, 0, 255, 255].length
      ∧ inc [10, 0, 255, 255] = [10, 1, 0, 0]
      ∧ beVal (inc [10, 0, 255, 255]) = (beVal [10, 0, 255, 255] + 1) % 256 ^ 4 :=
  ⟨by decide, by decide, by decide,
    (inc_adds_one [10, 0, 255, 255] (by decide) (by decide)).2.2.1⟩

theorem div_eq_iff_block (S q v : Nat) (hS : 0 < S) :
    q = v / S ↔ q * S ≤ v ∧ v < q * S + S := by
  constructor
  · rintro rfl
    exact ⟨Nat.div_mul_le_self v S, Nat.lt_div_mul_add hS⟩
  · rintro ⟨h1, h2⟩
    symm
    apply Nat.div_eq_of_lt_le h1
    rw [Nat.succ_mul]; exact h2

/-- The enumeration of an IPv4 network of prefix length `1 ≤ p ≤ 32`: with fuel above
`2 ^ (32 - p)`, `hosts` returns the text of every address of the block, in order. -/
theorem hosts_ipv4_core (addr : List Nat) (p fuel : Nat) (hlen : addr.length = 4)
    (hb : Bytes addr) (hp1 : 1 ≤ p) (hp2 : p ≤ 32) (hfuel : 2 ^ (32 - p) < fuel) :
    hosts fuel (Mask addr (CIDRMask p 32)) ⟨Mask addr (CIDRMask p 32), CIDRMask p 32⟩
        = some ((List.range' (beVal (Mask addr (CIDRMask p 32))) (2 ^ (32 - p))).map
            (fun v => IPString (beBytes 4 v)))
      ∧ beVal (Mask addr (CIDRMask p 32)) = beVal addr / 2 ^ (32 - p) * 2 ^ (32 - p)
      ∧ beVal (Mask addr (CIDRMask p 32)) + 2 ^ (32 - p) ≤ 2 ^ 32 := by
  have hlt : beVal addr < 2 ^ 32 := by
    have := beVal_lt addr hb
    rw [hlen] at this
    norm_num at this ⊢; exact this
  have hSpos : 0 < 2 ^ (32 - p) := Nat.two_pow_pos _
  have hS : 2 ^ (32 - p) < 2 ^ 32 := Nat.pow_lt_pow_right (by decide) (by omega)
  have hdvd : 2 ^ (32 - p) ∣ 2 ^ 32 := pow_dvd_pow 2 (by omega)
  have hM := Mask_cidr4 addr p hb hlen hp2
  have hMask : ∀ x : List Nat, Bytes x → x.length = 4 →
      Mask x (CIDRMask p 32) = beBytes 4 (beVal x / 2 ^ (32 - p) * 2 ^ (32 - p)) :=
    fun x hx hl => Mask_cidr4 x p hx hl hp2
  have hCont : ∀ a x : List Nat, Bytes a → Bytes x → a.length = 4 → x.length = 4 →
      (Contains ⟨a, CIDRMask p 32⟩ x = true
        ↔ beVal a / 2 ^ (32 - p) = beVal x / 2 ^ (32 - p)) :=
    fun a x ha hx hla hlx => Contains_cidr4 a x p ha hx hla hlx hp2
  generalize 2 ^ (32 - p) = S at *
  generalize CIDRMask p 32 = m at *
  obtain ⟨c, hc⟩ := hdvd
  generalize hq : beVal addr / S = q at *
  have hqc : q < c := by
    rw [← hq, Nat.div_lt_iff_lt_mul hSpos, Nat.mul_comm, ← hc]; exact hlt
  have hqS : q * S + S ≤ 2 ^ 32 := by
    rw [hc]
    calc q * S + S = S * (q + 1) := by ring
      _ ≤ S * c := Nat.mul_le_mul_left _ hqc
  have hqSlt : q * S < 2 ^ 32 := by omega
  have h256 : (256 : Nat) ^ 4 = 2 ^ 32 := by norm_num
  have hval : beVal (Mask addr m) = q * S := by
    rw [hM, beVal_beBytes, h256]
    exact Nat.mod_eq_of_lt hqSlt
  have hvq : beVal (beBytes 4 (q * S)) = q * S := by
    rw [beVal_beBytes, h256, Nat.mod_eq_of_lt hqSlt]
  have hMM : Mask (beBytes 4 (q * S)) m = beBytes 4 (q * S) := by
    rw [hMask _ (beBytes_bytes _ _) (beBytes_length _ _), hvq, Nat.mul_div_cancel _ hSpos]
  refine ⟨?_, hval, by rw [hval]; exact hqS⟩
  rw [hval, hM]
  unfold hosts
  simp only []
  rw [hMM]
  have hcont : ∀ v, v < 2 ^ 32 →
      (Contains ⟨beBytes 4 (q * S), m⟩ (beBytes 4 v) = true
        ↔ q * S ≤ v ∧ v < q * S + S) := by
    intro v hv
    rw [hCont _ _ (beBytes_bytes _ _) (beBytes_bytes _ _) (beBytes_length _ _)
      (beBytes_length _ _), hvq, beVal_beBytes, h256, Nat.mod_eq_of_lt hv,
      Nat.mul_div_cancel _ hSpos]
    exact div_eq_iff_block S q v hSpos
  have := hostsLoop_enum _ (q * S) S hS hqS hcont S (q * S) fuel [] rfl (le_refl _) hfuel
  rw [Nat.mod_eq_of_lt hqSlt] at this
  simpa using this

/-- The values `v` with `beBytes 4 v` in the network of `addr` and prefix length `p` are
those of the block that starts at the network number. -/
theorem Contains_block (addr : List Nat) (p v : Nat) (hlen : addr.length = 4)
    (hb : Bytes addr) (hp2 : p ≤ 32) (hv : v < 2 ^ 32) :
    Contains ⟨Mask addr (CIDRMask p 32), CIDRMask p 32⟩ (beBytes 4 v) = true
      ↔ beVal addr / 2 ^ (32 - p) * 2 ^ (32 - p) ≤ v
        ∧ v < beVal addr / 2 ^ (32 - p) * 2 ^ (32 - p) + 2 ^ (32 - p) := by
  have hSpos : 0 < 2 ^ (32 - p) := Nat.two_pow_pos _
  have h256 : (256 : Nat) ^ 4 = 2 ^ 32 := by norm_num
  have hlt : beVal addr < 2 ^ 32 := by
    have := beVal_lt addr hb
    rwa [hlen, h256] at this
  have hqS : beVal addr / 2 ^ (32 - p) * 2 ^ (32 - p) < 2 ^ 32 :=
    lt_of_le_of_lt (Nat.div_mul_le_self _ _) hlt
  rw [Mask_cidr4 addr p hb hlen hp2,
    Contains_cidr4 _ _ p (beBytes_bytes _ _) (beBytes_bytes _ _) (beBytes_length _ _)
      (beBytes_length _ _) hp2, beVal_beBytes, beVal_beBytes, h256, Nat.mod_eq_of_lt hqS,
    Nat.mod_eq_of_lt hv, Nat.mul_div_cancel _ hSpos]
  exact div_eq_iff_block _ _ v hSpos

/-- The positive part of C1 for IPv4 and a prefix length of at least one: `hosts`
returns `2 ^ (32 - p)` addresses, strictly increasing as integers, each in the
network. -/
theorem hosts_ipv4_count_increasing_contained (addr : List Nat) (p fuel : Nat)
    (hlen : addr.length = 4) (hb : Bytes addr) (hp1 : 1 ≤ p) (hp2 : p ≤ 32)
    (hfuel : 2 ^ (32 - p) < fuel) :
    ∃ vals : List Nat,
      hosts fuel (Mask addr (CIDRMask p 32)) ⟨Mask addr (CIDRMask p 32), CIDRMask p 32⟩
          = some (vals.map (fun v => IPString (beBytes 4 v)))
        ∧ vals.length = 2 ^ (32 - p)
        ∧ vals.Pairwise (fun a b => a < b)
        ∧ ∀ v ∈ vals, v < 2 ^ 32 ∧
            Contains ⟨Mask addr (CIDRMask p 32), CIDRMask p 32⟩ (beBytes 4 v) = true := by
  obtain ⟨h1, h2, h3⟩ := hosts_ipv4_core addr p fuel hlen hb hp1 hp2 hfuel
  refine ⟨_, h1, by simp, List.pairwise_lt_range' _ _, ?_⟩
  intro v hv
  rw [List.mem_range'_1] at hv
  have hv32 : v < 2 ^ 32 := by omega
  refine ⟨hv32, ?_⟩
  rw [Contains_block addr p v hlen hb hp2 hv32, ← h2]
  exact hv

/-- First and last element of the enumeration of a block of `S > 0` addresses. -/
theorem range_map_ends (f : Nat → String) (base S : Nat) (hS : 0 < S) :
    ((List.range' base S).map f).head? = some (f base)
      ∧ ((List.range' base S).map f).getLast? = some (f (base + S - 1)) := by
  have h0 : S ≠ 0 := by omega
  simp [List.head?_map, List.getLast?_map, List.head?_range', List.getLast?_range', h0]

/-- C9: for an IPv4 network with prefix length `p`, `1 ≤ p ≤ 32`, as `net.ParseCIDR`
builds it from an address `addr`, `hosts` ends (any fuel above `2 ^ (32 - p)` is enough)
and returns the text of the consecutive addresses `network, network + 1, ...,
network + 2 ^ (32 - p) - 1`, where `network` is `addr` with its host bits cleared: the
first element is the network address and the last the broadcast address. The block may
end at `255.255.255.255`: the loop then stops on the wrapped address. -/
theorem hosts_ipv4_enumerates (addr : List Nat) (p fuel : Nat) (hlen : addr.length = 4)
    (hb : Bytes addr) (hp1 : 1 ≤ p) (hp2 : p ≤ 32) (hfuel : 2 ^ (32 - p) < fuel) :
    hosts fuel (Mask addr (CIDRMask p 32)) ⟨Mask addr (CIDRMask p 32), CIDRMask p 32⟩
        = some ((List.range' (beVal (Mask addr (CIDRMask p 32))) (2 ^ (32 - p))).map
            (fun v => IPString (beBytes 4 v)))
      ∧ beVal (Mask addr (CIDRMask p 32)) = beVal addr / 2 ^ (32 - p) * 2 ^ (32 - p)
      ∧ beVal (Mask addr (CIDRMask p 32)) + 2 ^ (32 - p) ≤ 2 ^ 32
      ∧ ((List.range' (beVal (Mask addr (CIDRMask p 32))) (2 ^ (32 - p))).map
            (fun v => IPString (beBytes 4 v))).head?
          = some (IPString (Mask addr (CIDRMask p 32)))
      ∧ ((List.range' (beVal (Mask addr (CIDRMask p 32))) (2 ^ (32 - p))).map
            (fun v => IPString (beBytes 4 v))).getLast?
          = some (IPString (beBytes 4 (beVal (Mask addr (CIDRMask p 32)) + 2 ^ (32 - p) - 1))) := by
  obtain ⟨h1, h2, h3⟩ := hosts_ipv4_core addr p fuel hlen hb hp1 hp2 hfuel
  obtain ⟨e1, e2⟩ := range_map_ends (fun v => IPString (beBytes 4 v))
    (beVal (Mask addr (CIDRMask p 32))) (2 ^ (32 - p)) (Nat.two_pow_pos _)
  refine ⟨h1, h2, h3, ?_, e2⟩
  rw [e1]
  have hM := Mask_cidr4 addr p hb hlen hp2
  rw [← h2] at hM
  rw [← hM]

/-- C9 at `192.168.1.77/30`, at `255.255.255.255/32` and at `255.255.255.254/30`, the
last two ending at the address after which `inc` wraps to `0.0.0.0`. -/
theorem hosts_ipv4_enumerates_witness :
    ([192, 168, 1, 77].length = 4 ∧ Bytes [192, 168, 1, 77] ∧ 1 ≤ 30 ∧ 30 ≤ 32
      ∧ 2 ^ (32 - 30) < 5
      ∧ hosts 5 [192, 168, 1, 76] ⟨[192, 168, 1, 76], [255, 255, 255, 252]⟩
        = some ["192.168.1.76", "192.168.1.77", "192.168.1.78", "192.168.1.79"])
    ∧ hosts 2 [255, 255, 255, 255] ⟨[255, 255, 255, 255], [255, 255, 255, 255]⟩
        = some ["255.255.255.255"]
    ∧ hosts 5 [255, 255, 255, 252] ⟨[255, 255, 255, 252], [255, 255, 255, 252]⟩
        = some ["255.255.255.252", "255.255.255.253", "255.255.255.254", "255.255.255.255"] :=
  ⟨⟨by decide, by decide, by decide, by decide, by decide,
    (hosts_ipv4_enumerates [192, 168, 1, 77] 30 5 (by decide) (by decide) (by decide)
      (by decide) (by decide)).1⟩,
   (hosts_ipv4_enumerates [255, 255, 255, 255] 32 2 (by decide) (by decide) (by decide)
      (by decide) (by decide)).1,
   (hosts_ipv4_enumerates [255, 255, 255, 254] 30 5 (by decide) (by decide) (by decide)
      (by decide) (by decide)).1⟩

/-- With the mask of prefix length zero every 4-byte address is in the network. -/
theorem Contains_zero_mask (ip : List Nat) (h : ip.length = 4) :
    Contains ⟨[0, 0, 0, 0], CIDRMask 0 32⟩ ip = true := by
  have h0 : ∀ x : Nat, x < 256 → True := fun _ _ => trivial
  match ip, h with
  | [a, b, c, d], _ =>
    simp [Contains, networkNumberAndMask, To4, CIDRMask, cidrMaskLoop, IPv4len, IPv6len,
      List.range, List.range.loop]

/-- With the mask of prefix length zero the loop of `hosts` uses up any fuel. -/
theorem hostsLoop_zero_mask (fuel : Nat) (ip : List Nat) (acc : List String)
    (h : ip.length = 4) :
    hostsLoop ⟨[0, 0, 0, 0], CIDRMask 0 32⟩ fuel ip acc = none := by
  induction fuel generalizing ip acc with
  | zero => rfl
  | succ fuel ih =>
    rw [hostsLoop, if_pos (Contains_zero_mask ip h)]
    exact ih _ _ (by rw [inc_length, h])

/-- C1, at the network `0.0.0.0/0`: the loop of `hosts` never ends, whatever fuel it
is given, so `hosts` returns no list at all. -/
theorem hosts_zero_prefix_never_returns :
    ¬ ∃ fuel ips, hosts fuel [0, 0, 0, 0] ⟨[0, 0, 0, 0], CIDRMask 0 32⟩ = some ips := by
  rintro ⟨fuel, ips, h⟩
  have := hostsLoop_zero_mask fuel (Mask [0, 0, 0, 0] (CIDRMask 0 32)) [] (by decide)
  unfold hosts at h
  rw [this] at h
  exact Option.noConfusion h

/-! ## Theorems: `probes` -/

/-- A loop `for i, p := range xs { list[i+off] = f(p) }` over a slice overwrites the
`len(xs)` elements that start at index `off`. -/
theorem foldl_set_enumFrom (f : Int → String) (off : Nat) (xs : List Int) (k : Nat)
    (pre rest : List String) (hpre : pre.length = k + off) (hrest : xs.length ≤ rest.length) :
    (xs.enumFrom k).foldl
        (fun (list : List String) (q : Nat × Int) => list.set (q.1 + off) (f q.2))
        (pre ++ rest)
      = pre ++ xs.map f ++ rest.drop xs.length := by
  induction xs generalizing k pre rest with
  | nil => simp
  | cons x xs ih =>
    match rest, hrest with
    | r :: rest1, hrest =>
      have hlen : xs.length ≤ rest1.length := by simpa using hrest
      simp only [List.enumFrom_cons, List.foldl_cons]
      have hset : (pre ++ r :: rest1).set (k + off) (f x) = (pre ++ [f x]) ++ rest1 := by
        rw [← hpre, List.set_append_right _ _ (le_refl _)]
        simp
      rw [hset, ih (k + 1) (pre ++ [f x]) rest1 (by simp [hpre]; omega) hlen]
      simp

/-- Function `probes` as a list: the plain-HTTP URLs, then the TLS URLs. -/
theorem probes_eq (ip : String) (http https : List Int) :
    probes ip http https
      = http.map (fun p => "http://" ++ ip ++ ":" ++ toString p)
        ++ https.map (fun p => "https://" ++ ip ++ ":" ++ toString p) := by
  unfold probes
  simp only [List.enum]
  have h1 := foldl_set_enumFrom (fun p => "http://" ++ ip ++ ":" ++ toString p) 0 http 0 []
    (List.replicate (http.length + https.length) "") rfl (by simp)
  simp only [List.nil_append, Nat.add_zero] at h1
  rw [h1]
  have h2 := foldl_set_enumFrom (fun p => "https://" ++ ip ++ ":" ++ toString p) http.length
    https 0 (http.map (fun p => "http://" ++ ip ++ ":" ++ toString p))
    (List.replicate https.length "") (by simp) (by simp)
  have hdrop : List.drop http.length (List.replicate (http.length + https.length) "")
      = List.replicate https.length "" := by
    simp
  rw [hdrop, h2]
  simp

/-- C4: `probes` returns `len(http) + len(https)` URLs; the `i`-th is the plain-HTTP URL
of `http[i]` and the `(len(http) + j)`-th the TLS URL of `https[j]`, so every plain-HTTP
URL comes before every TLS URL and both groups keep the caller's order. -/
theorem probes_order (ip : String) (http https : List Int) :
    (probes ip http https).length = http.length + https.length
      ∧ (∀ (i : Nat) (p : Int), http[i]? = some p →
          (probes ip http https)[i]? = some ("http://" ++ ip ++ ":" ++ toString p))
      ∧ (∀ (j : Nat) (p : Int), https[j]? = some p →
          (probes ip http https)[http.length + j]?
            = some ("https://" ++ ip ++ ":" ++ toString p))
      ∧ probes ip http https
          = http.map (fun p => "http://" ++ ip ++ ":" ++ toString p)
            ++ https.map (fun p => "https://" ++ ip ++ ":" ++ toString p) := by
  refine ⟨?_, ?_, ?_, probes_eq ip http https⟩
  · simp [probes_eq]
  · intro i p hp
    have hi : i < http.length := (List.getElem?_eq_some_iff.1 hp).1
    rw [probes_eq, List.getElem?_append_left (by simpa using hi)]
    simp [hp]
  · intro j p hp
    rw [probes_eq, List.getElem?_append_right (by simp)]
    simp [hp]

/-! ## Theorems: the `Server` header -/

theorem splitChar_ne_nil (sep : Char) (s : List Char) : splitChar sep s ≠ [] := by
  induction s with
  | nil => simp [splitChar]
  | cons c cs ih =>
    simp only [splitChar]
    split
    · simp
    · split <;> simp

theorem splitChar_no_sep (sep : Char) (r : List Char) (h : sep ∉ r) :
    splitChar sep r = [r] := by
  induction r with
  | nil => rfl
  | cons c cs ih =>
    have hc : c ≠ sep := fun e => h (by simp [e])
    have hcs : sep ∉ cs := fun e => h (List.mem_cons_of_mem _ e)
    simp [splitChar, hc, ih hcs]

theorem splitChar_append_sep (sep : Char) (a r : List Char) (h : sep ∉ a) :
    splitChar sep (a ++ sep :: r) = a :: splitChar sep r := by
  induction a with
  | nil => simp [splitChar]
  | cons c cs ih =>
    have hc : c ≠ sep := fun e => h (by simp [e])
    have hcs : sep ∉ cs := fun e => h (List.mem_cons_of_mem _ e)
    simp [splitChar, hc, ih hcs]

theorem fieldsAux_nonspace (v rest cur : List Char) (h : ∀ c ∈ v, isSpace c = false) :
    fieldsAux (v ++ rest) cur = fieldsAux rest (v.reverse ++ cur) := by
  induction v generalizing cur with
  | nil => rfl
  | cons c cs ih =>
    have hc : isSpace c = false := h c (by simp)
    rw [List.cons_append, fieldsAux, if_neg (by simp [hc]),
      ih _ (fun d hd => h d (List.mem_cons_of_mem _ hd))]
    simp

theorem fieldsAux_two (v w : List Char) (sp : Char) (hsp : isSpace sp = true)
    (hv : ∀ c ∈ v, isSpace c = false) (hv0 : v ≠ [])
    (hw : ∀ c ∈ w, isSpace c = false) (hw0 : w ≠ []) :
    fieldsAux (v ++ sp :: w) [] = [v, w] := by
  rw [fieldsAux_nonspace v _ [] hv]
  have h1 : v.reverse ++ [] ≠ [] := by simpa using hv0
  have h2 : w.reverse ++ [] ≠ [] := by simpa using hw0
  simp only [fieldsAux, hsp, if_true, if_neg h1]
  have := fieldsAux_nonspace w [] [] hw
  rw [List.append_nil] at this
  rw [this]
  simp only [fieldsAux, if_neg h2]
  simp

theorem dropWhile_head_false (p : Char → Bool) (l : List Char) (h : ∀ c, l.head? = some c → p c = false) :
    l.dropWhile p = l := by
  cases l with
  | nil => rfl
  | cons c cs => simp [List.dropWhile, h c rfl]

theorem trim_parens (v : List Char) (hv0 : v ≠ []) (hv : ∀ c ∈ v, c ≠ '(' ∧ c ≠ ')') :
    (((('(' :: (v ++ [')'])).dropWhile (fun c => ['(', ')'].contains c)).reverse.dropWhile
      (fun c => ['(', ')'].contains c)).reverse) = v := by
  have hp : ∀ c ∈ v, (['(', ')'].contains c) = false := by
    intro c hc
    have := hv c hc
    simp [this.1, this.2]
  have h1 : (v ++ [')']).dropWhile (fun c => ['(', ')'].contains c) = v ++ [')'] := by
    apply dropWhile_head_false
    intro c hc
    cases v with
    | nil => exact absurd rfl hv0
    | cons a as =>
      simp at hc; subst hc
      exact hp a (by simp)
  have h2 : v.reverse.dropWhile (fun c => ['(', ')'].contains c) = v.reverse := by
    apply dropWhile_head_false
    intro c hc
    have hmem : c ∈ v.reverse := List.mem_of_mem_head? hc
    exact hp c (by simpa using hmem)
  simp only [List.dropWhile_cons]
  have hopen : (['(', ')'].contains '(') = true := by decide
  have hclose : (['(', ')'].contains ')') = true := by decide
  simp only [hopen, if_true, h1, List.reverse_append, List.reverse_singleton,
    List.singleton_append, List.dropWhile_cons, hclose, h2, List.reverse_reverse]

theorem header_data (app version vendor : String) :
    (app ++ "/" ++ version ++ " (" ++ vendor ++ ")").data
      = app.data ++ '/' :: (version.data ++ ' ' :: ('(' :: (vendor.data ++ [')']))) := by
  simp [String.data_append]

/-- The header `app/version (vendor)` is split into its three parts. -/
theorem serverDetails_full (app version vendor : String)
    (happ : '/' ∉ app.data)
    (hver : version ≠ "" ∧ ∀ c ∈ version.data, c ≠ '/' ∧ isSpace c = false ∧ c ≠ '(' ∧ c ≠ ')')
    (hven : vendor ≠ "" ∧ ∀ c ∈ vendor.data, c ≠ '/' ∧ isSpace c = false ∧ c ≠ '(' ∧ c ≠ ')') :
    serverDetails (app ++ "/" ++ version ++ " (" ++ vendor ++ ")")
      = .ok (app, version, vendor) := by
  obtain ⟨hver0, hver⟩ := hver
  obtain ⟨hven0, hven⟩ := hven
  have hv0 : version.data ≠ [] := fun h => hver0 (String.ext h)
  have hw0 : vendor.data ≠ [] := fun h => hven0 (String.ext h)
  have hrest : '/' ∉ version.data ++ ' ' :: ('(' :: (vendor.data ++ [')'])) := by
    intro h
    simp only [List.mem_append, List.mem_cons, List.mem_singleton] at h
    rcases h with h | h | h | h | h
    · exact (hver _ h).1 rfl
    · exact absurd h (by decide)
    · exact absurd h (by decide)
    · exact (hven _ h).1 rfl
    · simp at h
  have hsplit : Split (app ++ "/" ++ version ++ " (" ++ vendor ++ ")") '/'
      = [app, String.mk (version.data ++ ' ' :: ('(' :: (vendor.data ++ [')'])))] := by
    unfold Split
    rw [header_data, splitChar_append_sep _ _ _ happ, splitChar_no_sep _ _ hrest]
    rfl
  have hfields : Fields (String.mk (version.data ++ ' ' :: ('(' :: (vendor.data ++ [')']))))
      = [version, String.mk ('(' :: (vendor.data ++ [')']))] := by
    unfold Fields
    simp only []
    rw [fieldsAux_two version.data ('(' :: (vendor.data ++ [')'])) ' ' (by decide)
      (fun c hc => (hver c hc).2.1) hv0 ?_ (by simp)]
    · rfl
    · intro c hc
      simp only [List.mem_cons, List.mem_append, List.mem_singleton, List.not_mem_nil,
        or_false] at hc
      rcases hc with rfl | hc | rfl
      · decide
      · exact (hven c hc).2.1
      · decide
  have htrim : Trim (String.mk ('(' :: (vendor.data ++ [')']))) "()" = vendor := by
    unfold Trim
    have := trim_parens vendor.data hw0 (fun c hc => ⟨(hven c hc).2.2.1, (hven c hc).2.2.2⟩)
    simp only [] at this ⊢
    apply String.ext
    simpa using this
  unfold serverDetails
  simp only [hsplit]
  simp [hfields, htrim]

/-! ## Theorems: `head` and `scan` -/

theorem Split_head (s : String) (sep : Char) : ∃ first, (Split s sep)[0]? = some first := by
  unfold Split
  cases h : splitChar sep s.data with
  | nil => exact absurd h (splitChar_ne_nil sep s.data)
  | cons a as => exact ⟨String.mk a, by simp⟩

/-- C5: for a `Server` header `app/version (vendor)` — no `/` in `app`, and `version`
and `vendor` not empty and free of `/`, white space and parentheses — `head` calls the
sink once, with `App = app`, `Version = version` and `Vendor = vendor`, and returns
true. -/
theorem head_reports_server (w : World) (probe : String) (u : URL)
    (app version vendor : String)
    (hreq : w.NewRequest probe = some u)
    (hdo : w.Do probe = some (app ++ "/" ++ version ++ " (" ++ vendor ++ ")"))
    (happ : '/' ∉ app.data)
    (hver : version ≠ "" ∧
      ∀ c ∈ version.data, c ≠ '/' ∧ isSpace c = false ∧ c ≠ '(' ∧ c ≠ ')')
    (hven : vendor ≠ "" ∧
      ∀ c ∈ vendor.data, c ≠ '/' ∧ isSpace c = false ∧ c ≠ '(' ∧ c ≠ ')') :
    ∃ ip, (Split u.Host ':')[0]? = some ip ∧
      head w probe true
        = ⟨[.request probe,
            .sink { IP := ip, Port := Atoi u.Port, App := app, Version := version,
                    Vendor := vendor, TS := w.now probe }], .ret true⟩ := by
  obtain ⟨ip, hip⟩ := Split_head u.Host ':'
  refine ⟨ip, hip, ?_⟩
  unfold head
  simp only [hreq, hdo, serverDetails_full app version vendor happ hver hven, hip]
  rfl

/-- C5 at the header `Apache/2.4.41 (Ubuntu)`. -/
theorem head_reports_server_witness :
    ∃ ip, (Split "10.0.0.1:80" ':')[0]? = some ip ∧
      head (oneServer "http://10.0.0.1:80" ("Apache" ++ "/" ++ "2.4.41" ++ " (" ++ "Ubuntu" ++ ")"))
          "http://10.0.0.1:80" true
        = ⟨[.request "http://10.0.0.1:80",
            .sink { IP := ip, Port := Atoi "80", App := "Apache", Version := "2.4.41",
                    Vendor := "Ubuntu", TS := 0 }], .ret true⟩ :=
  head_reports_server
    (oneServer "http://10.0.0.1:80" ("Apache" ++ "/" ++ "2.4.41" ++ " (" ++ "Ubuntu" ++ ")"))
    "http://10.0.0.1:80" ⟨"10.0.0.1:80", "80"⟩ "Apache" "2.4.41" "Ubuntu"
    (by decide) (by decide) (by decide) (by decide) (by decide)

/-- C2, at the header `Apache/`: the segment after the `/` has no field, `versions[0]`
is out of range and the header-parsing step of `head` panics; so it does for a segment
of white space. A missing header and a header without `/` are parsed without failure. -/
theorem serverDetails_empty_version_panics :
    serverDetails "Apache/" = .error "runtime error: index out of range [0] with length 0"
      ∧ serverDetails "Apache/  " = .error "runtime error: index out of range [0] with length 0"
      ∧ head (oneServer "http://10.0.0.1:80" "Apache/") "http://10.0.0.1:80" true
          = ⟨[.request "http://10.0.0.1:80"],
              .panic "runtime error: index out of range [0] with length 0"⟩
      ∧ serverDetails "" = .ok ("", "", "")
      ∧ serverDetails "nginx" = .ok ("nginx", "", "")
      ∧ serverDetails "nginx/1.18.0" = .ok ("nginx", "1.18.0", "") :=
  ⟨rfl, rfl, by decide, rfl, rfl, rfl⟩

/-- C3, at a host whose port 80 answers with the header `Apache/`: the request
succeeds, yet `scan` panics in `head` and the sink is never called. -/
theorem scan_panics_before_sink :
    succeeds (oneServer "http://10.0.0.1:80" "Apache/") "http://10.0.0.1:80" = true
      ∧ scan (oneServer "http://10.0.0.1:80" "Apache/") true "10.0.0.1" [80, 8080] [443]
          = ⟨[.request "http://10.0.0.1:80"],
              .panic "runtime error: index out of range [0] with length 0"⟩
      ∧ sinks (scan (oneServer "http://10.0.0.1:80" "Apache/") true "10.0.0.1"
          [80, 8080] [443]).trace = [] :=
  ⟨by decide, by decide, by decide⟩

/-- A request that fails: `head` returns false and the sink is not called. -/
theorem head_of_fails (w : World) (u : String) (fn : Bool) (h : succeeds w u = false) :
    head w u fn = ⟨[.request u], .ret false⟩ := by
  unfold head
  unfold succeeds at h
  cases h1 : w.NewRequest u with
  | none => rfl
  | some url =>
    cases h2 : w.Do u with
    | none => rfl
    | some hd => simp [h1, h2] at h

/-- A request that succeeds with a header that is parsed without panic: `head` calls the
sink once and returns true. -/
theorem head_of_succeeds (w : World) (u : String) (h : succeeds w u = true)
    (hparse : ∀ hd, w.Do u = some hd → ∃ d, serverDetails hd = .ok d) :
    ∃ f, head w u true = ⟨[.request u, .sink f], .ret true⟩ := by
  unfold succeeds at h
  cases h1 : w.NewRequest u with
  | none => simp [h1] at h
  | some url =>
    cases h2 : w.Do u with
    | none => simp [h2] at h
    | some hd =>
      obtain ⟨⟨a, b, c⟩, hd1⟩ := hparse hd h2
      obtain ⟨ip, hip⟩ := Split_head url.Host ':'
      refine ⟨{ IP := ip, Port := Atoi url.Port, App := a, Version := b, Vendor := c,
                TS := w.now u }, ?_⟩
      unfold head
      simp only [h1, h2, hd1, hip]
      rfl

/-- The loop of `scan` when no header makes `head` panic: the URLs are requested in
order up to and including the first that succeeds, and the sink is called once if one
succeeds and not at all otherwise. -/
theorem scanLoop_first_match (w : World) (us : List String)
    (hparse : ∀ u ∈ us, ∀ hd, w.Do u = some hd → ∃ d, serverDetails hd = .ok d) :
    requests (scanLoop w true us).trace = uptoFirst (succeeds w) us
      ∧ (sinks (scanLoop w true us).trace).length = (if us.any (succeeds w) then 1 else 0)
      ∧ (scanLoop w true us).res = .ret () := by
  induction us with
  | nil => simp [scanLoop, requests, sinks, uptoFirst]
  | cons u rest ih =>
    have ih := ih (fun v hv => hparse v (List.mem_cons_of_mem _ hv))
    cases hs : succeeds w u with
    | true =>
      obtain ⟨f, hf⟩ := head_of_succeeds w u hs (hparse u (by simp))
      simp [scanLoop, hf, requests, sinks, uptoFirst, hs]
    | false =>
      have hf := head_of_fails w u true hs
      obtain ⟨ih1, ih2, ih3⟩ := ih
      simp only [scanLoop, hf, uptoFirst, hs, List.any_cons, Bool.false_or]
      refine ⟨?_, ?_, ih3⟩
      · rw [← ih1]; simp [requests]
      · rw [← ih2]; simp [sinks]

/-! ## Theorems: `Scan` and `ScanContext` -/

/-- Every error of `net.ParseCIDR` is the `ParseError` of type `CIDR address` on the
whole text. -/
theorem ParseCIDR_error_text (w : World) (s e : String) (h : ParseCIDR w s = .error e) :
    e = "invalid CIDR address: " ++ s := by
  unfold ParseCIDR at h
  simp only [] at h
  repeat' split at h
  all_goals first | exact (Except.error.inj h).symm | exact Except.noConfusion h

/-- C6: for a subnet request that is not `local` in any letter case and that
`net.ParseCIDR` rejects, `Scan` returns a non-nil error and its trace is empty: no host
is enumerated, the file-descriptor limit is not queried, no request is sent and the
sink is not called. -/
theorem Scan_rejects_invalid_cidr (w : World) (fuel : Nat) (cidr : String)
    (http https : List Int) (fn : Bool) (e : String)
    (hlocal : ToLower cidr ≠ LocalSubnet) (hbad : ParseCIDR w cidr = .error e) :
    Scan w fuel cidr http https fn
        = ⟨[], .ret (some ("parse error: " ++ ("invalid CIDR address: " ++ cidr)))⟩
      ∧ (Scan w fuel cidr http https fn).res ≠ .ret none
      ∧ (∀ ips, Event.enumerated ips ∉ (Scan w fuel cidr http https fn).trace)
      ∧ Event.ulimit ∉ (Scan w fuel cidr http https fn).trace
      ∧ sinks (Scan w fuel cidr http https fn).trace = [] := by
  have he := ParseCIDR_error_text w cidr e hbad
  have hS : Scan w fuel cidr http https fn
      = ⟨[], .ret (some ("parse error: " ++ ("invalid CIDR address: " ++ cidr)))⟩ := by
    unfold Scan
    simp only [if_neg hlocal, hbad, he]
  rw [hS]
  refine ⟨rfl, ?_, ?_, ?_, rfl⟩
  · intro h; exact Option.noConfusion (Res.ret.inj h)
  · intro ips h; simp at h
  · intro h; simp at h

/-- C6 at the request `10.0.0.0/99`. -/
theorem Scan_rejects_invalid_cidr_witness :
    ToLower "10.0.0.0/99" ≠ LocalSubnet
      ∧ ParseCIDR (oneServer "http://10.0.0.1:80" "Apache") "10.0.0.0/99"
          = .error "invalid CIDR address: 10.0.0.0/99"
      ∧ Scan (oneServer "http://10.0.0.1:80" "Apache") 1000 "10.0.0.0/99" [80, 8080] [443] true
          = ⟨[], .ret (some "parse error: invalid CIDR address: 10.0.0.0/99")⟩ :=
  ⟨by decide, rfl,
    (Scan_rejects_invalid_cidr (oneServer "http://10.0.0.1:80" "Apache") 1000 "10.0.0.0/99"
      [80, 8080] [443] true "invalid CIDR address: 10.0.0.0/99" (by decide) rfl).1⟩

/-- C7: whatever the context — cancelled or past its deadline included — `ScanContext`
ends as `Scan` does on the same arguments, with the same error and the same trace, sink
calls included. -/
theorem ScanContext_ignores_context (w : World) (fuel : Nat) (ctx : Context) (cidr : String)
    (http https : List Int) (fn : Bool) :
    ScanContext w fuel ctx cidr http https fn = Scan w fuel cidr http https fn ∧
    ScanContext w fuel ⟨true, some "context canceled"⟩ cidr http https fn
      = Scan w fuel cidr http https fn :=
  ⟨rfl, rfl⟩

/-! ## Theorems: the networks of `net.ParseCIDR` -/

theorem parseIPv4Field_lt (f : List Char) (x : Nat) (h : parseIPv4Field f = some x) :
    x < 256 := by
  unfold parseIPv4Field at h
  repeat' split at h
  all_goals first | exact Option.noConfusion h | skip
  all_goals
    have hx := Option.some.inj h
    omega

theorem parseIPv4_bytes (s : String) (ip : List Nat) (h : parseIPv4 s = some ip) :
    ip.length = 4 ∧ Bytes ip := by
  unfold parseIPv4 at h
  split at h
  · rename_i a b c d heq
    have hip := Option.some.inj h
    subst hip
    refine ⟨rfl, ?_⟩
    have hmem : ∀ x, some x ∈ (splitChar '.' s.data).map parseIPv4Field → x < 256 := by
      intro x hx
      obtain ⟨f, _, hf⟩ := List.mem_map.1 hx
      exact parseIPv4Field_lt f x hf
    rw [heq] at hmem
    intro x hx
    simp only [List.mem_cons, List.mem_singleton, List.not_mem_nil, or_false] at hx
    rcases hx with rfl | rfl | rfl | rfl <;> exact hmem _ (by simp)
  · exact Option.noConfusion h

theorem Mask_v4InV6 (ip m : List Nat) (hip : ip.length = 4) (hm : m.length = 4) :
    Mask (v4InV6 ++ ip) m = Mask ip m := by
  have h1 : (v4InV6 ++ ip).length = 16 := by simp [v4InV6, hip]
  have h2 : (v4InV6 ++ ip).take 12 = v4InV6 := by
    rw [List.take_append_of_le_length (by simp [v4InV6])]; rfl
  have h3 : (v4InV6 ++ ip).drop 12 = ip := by
    rw [List.drop_append_of_le_length (by simp [v4InV6])]; rfl
  simp [Mask, h1, h2, h3, hm, hip, IPv4len, IPv6len]

theorem ParseAddr_bytes (w : World) (s : String) (ip : List Nat)
    (h : ParseAddr w s = some ip) (h4 : ip.length = 4) : Bytes ip := by
  unfold ParseAddr at h
  split at h
  · exact (parseIPv4_bytes s ip h).2
  · cases h6 : w.parseIPv6 s with
    | none => rw [h6] at h; exact Option.noConfusion h
    | some ip6 =>
      rw [h6] at h
      change (if ip6.length = IPv6len then some ip6 else none) = some ip at h
      split at h
      · rename_i hlen
        have := Option.some.inj h
        subst this
        rw [h4] at hlen
        exact absurd hlen (by decide)
      · exact Option.noConfusion h
  · exact Option.noConfusion h

theorem CIDRMask_128_length (p : Nat) (hp : p ≤ 128) : (CIDRMask p 128).length = 16 := by
  have h1 : ¬ ((p : Int) < 0 ∨ (p : Int) > 128) := by omega
  unfold CIDRMask
  rw [if_neg (by simp [IPv6len]), if_neg h1]
  simp [cidrMaskLoop_length]

/-- The IPv4 networks that `net.ParseCIDR` returns are those of `hosts_ipv4_core`: an
address of four bytes, masked by the mask of its prefix length. -/
theorem ParseCIDR_ipv4_shape (w : World) (s : String) (n : IPNet)
    (h : ParseCIDR w s = .ok n) (h4 : n.Mask.length = 4) :
    ∃ (addr : List Nat) (p : Nat), addr.length = 4 ∧ Bytes addr ∧ p ≤ 32
      ∧ n = ⟨Mask addr (CIDRMask p 32), CIDRMask p 32⟩ := by
  unfold ParseCIDR at h
  simp only [] at h
  split at h
  · exact Except.noConfusion h
  · split at h
    · exact Except.noConfusion h
    · rename_i ip hip
      split at h
      · exact Except.noConfusion h
      · rename_i p i hd
        by_cases hl : ip.length = IPv4len
        · simp only [hl, if_true] at h
          split at h
          · exact Except.noConfusion h
          · rename_i hcond
            have hn := Except.ok.inj h
            subst hn
            have hp : p ≤ 32 := by omega
            refine ⟨ip, p, hl, ParseAddr_bytes w _ ip hip hl, hp, ?_⟩
            simp only [Nat.cast_ofNat]
            rw [Mask_v4InV6 ip _ hl (CIDRMask_32_length p hp)]
        · simp only [hl, if_false] at h
          split at h
          · exact Except.noConfusion h
          · rename_i hcond
            have hn := Except.ok.inj h
            subst hn
            have hp : p ≤ 128 := by omega
            have := CIDRMask_128_length p hp
            simp only [Nat.cast_ofNat] at h4
            omega

/-! ## Theorems: further facts on the text of addresses and headers -/

/-- Method `IP.String` on a 4-byte address: dotted decimal. -/
theorem IPString_v4 (a b c d : Nat) :
    IPString [a, b, c, d]
      = toString a ++ "." ++ toString b ++ "." ++ toString c ++ "." ++ toString d := by
  simp [IPString, To4, IPv4len, IPv6len]

/-- The header-parsing step of `head` panics exactly when the header has a `/` and the
segment after the first `/` (up to the next one) holds no field, that is, is empty or
white space only. -/
theorem serverDetails_panics_iff (header : String) :
    (∃ msg, serverDetails header = .error msg)
      ↔ ∃ d1, (Split header '/')[1]? = some d1 ∧ Fields d1 = [] := by
  obtain ⟨first, hfirst⟩ := Split_head header '/'
  unfold serverDetails
  simp only [hfirst]
  cases h1 : (Split header '/')[1]? with
  | none =>
    have hlen : ¬ (Split header '/').length > 1 := by
      intro h
      rw [List.getElem?_eq_getElem h] at h1
      exact Option.noConfusion h1
    simp [hlen]
  | some d1 =>
    have hlen : (Split header '/').length > 1 := (List.getElem?_eq_some_iff.1 h1).1
    simp only [hlen, if_true]
    cases hv : Fields d1 with
    | nil => simp [hv]
    | cons v rest =>
      cases rest with
      | nil => simp [hv]
      | cons v1 rest1 => simp [hv]

end Sscan
